import Mathlib

/-
Verification of the message queues of gutil/msgqueue.h (cvkit):
MsgQueue<T> (blocking bounded FIFO) and MsgQueueReplace<T> (bounded FIFO
whose push replaces the oldest element when full).

Each queue is embedded as a record holding the fields of the C++ class:
the clamped capacity nmax, the FIFO storage (a list, head = front of the
std::queue) and the counters of the full/empty semaphores.

Modelled from the spec: the header semaphore.h (class Semaphore with
increment/decrement and the scoped Lock guard) is not part of the sources
at hand; following the spec it is a counting semaphore - a non-negative
counter with non-blocking increment and a decrement that blocks while the
counter is zero - and Lock acquires the mutex on construction and releases
it at the end of the enclosing scope.  Accordingly a semaphore is embedded
as a Nat counter, a blocking decrement becomes an enabledness condition
(the step exists only when the counter is positive), and the mutex makes
push/pop atomic steps of a transition system.
-/

namespace Cvkit

/-- One operation requested on a queue: a push of a message or a pop. -/
inductive Op (T : Type) where
  | push (msg : T)
  | pop
deriving DecidableEq, Repr

/-- The messages pushed by a list of operations, in order. -/
def pushedOf {T : Type} : List (Op T) → List T
  | [] => []
  | Op.push m :: ops => m :: pushedOf ops
  | Op.pop :: ops => pushedOf ops

/-- State of MsgQueue<T>: capacity nmax, storage (head = front) and the
counters of the full and empty semaphores. -/
structure MsgQueue (T : Type) where
  nmax : Nat
  queue : List T
  full : Nat
  empty : Nat
deriving DecidableEq, Repr

/-- MsgQueue::MsgQueue(int _nmax): nmax = std::max(1, _nmax); the mutex is
released once; empty is incremented nmax times; full starts at zero. -/
def MsgQueue.init (T : Type) (n : Int) : MsgQueue T :=
  { nmax := (max 1 n).toNat
    queue := []
    full := 0
    empty := (max 1 n).toNat }

/-- Effect of MsgQueue::push(msg) once the empty permit has been acquired:
append msg to the storage, release one full permit. -/
def MsgQueue.pushState {T : Type} (s : MsgQueue T) (msg : T) : MsgQueue T :=
  { s with empty := s.empty - 1, queue := s.queue ++ [msg], full := s.full + 1 }

/-- Effect of MsgQueue::pop() once the full permit has been acquired:
remove the front element, release one empty permit. -/
def MsgQueue.popState {T : Type} (s : MsgQueue T) : MsgQueue T :=
  { s with full := s.full - 1, queue := s.queue.tail, empty := s.empty + 1 }

/-- One atomic operation of MsgQueue.  push first decrements empty, which
blocks while the counter is zero: the step exists only when 0 < empty.
pop first decrements full likewise.  The value returned by pop is
queue.front(), the head of the storage (none when the storage is empty,
which the code would access out of bounds). -/
def MsgQueue.step {T : Type} (s : MsgQueue T) : Op T → Option (MsgQueue T × List T)
  | Op.push m => if 0 < s.empty then some (s.pushState m, []) else none
  | Op.pop => if 0 < s.full then some (s.popState, s.queue.head?.toList) else none

/-- Run a list of operations on a MsgQueue, accumulating popped values;
none when some operation blocks forever (its permit never available within
the sequence). -/
def MsgQueue.run {T : Type} (s : MsgQueue T) : List (Op T) → Option (MsgQueue T × List T)
  | [] => some (s, [])
  | op :: ops =>
    match s.step op with
    | none => none
    | some (s1, out) =>
      match MsgQueue.run s1 ops with
      | none => none
      | some (s2, outs) => some (s2, out ++ outs)

/-- State of MsgQueueReplace<T>: capacity nmax, storage (head = front) and
the counter of the full semaphore; there is no empty semaphore. -/
structure MsgQueueReplace (T : Type) where
  nmax : Nat
  queue : List T
  full : Nat
deriving DecidableEq, Repr

/-- MsgQueueReplace::MsgQueueReplace(int _nmax): nmax = std::max(1, _nmax);
the mutex is released once; full starts at zero. -/
def MsgQueueReplace.init (T : Type) (n : Int) : MsgQueueReplace T :=
  { nmax := (max 1 n).toNat
    queue := []
    full := 0 }

/-- MsgQueueReplace::push(msg), the whole body under the lock: if
queue.size() >= nmax then pop the front and push msg (full untouched),
else push msg and increment full. -/
def MsgQueueReplace.push {T : Type} (s : MsgQueueReplace T) (msg : T) : MsgQueueReplace T :=
  if s.nmax ≤ s.queue.length then
    { s with queue := s.queue.tail ++ [msg] }
  else
    { s with queue := s.queue ++ [msg], full := s.full + 1 }

/-- Effect of MsgQueueReplace::pop() once the full permit has been
acquired: remove the front element. -/
def MsgQueueReplace.popState {T : Type} (s : MsgQueueReplace T) : MsgQueueReplace T :=
  { s with full := s.full - 1, queue := s.queue.tail }

/-- One atomic operation of MsgQueueReplace.  push is unconditional (no
permit is acquired); pop decrements full, which blocks while the counter
is zero. -/
def MsgQueueReplace.step {T : Type} (s : MsgQueueReplace T) :
    Op T → Option (MsgQueueReplace T × List T)
  | Op.push m => some (s.push m, [])
  | Op.pop => if 0 < s.full then some (s.popState, s.queue.head?.toList) else none

/-- Run a list of operations on a MsgQueueReplace, accumulating popped
values; none when some pop blocks forever. -/
def MsgQueueReplace.run {T : Type} (s : MsgQueueReplace T) :
    List (Op T) → Option (MsgQueueReplace T × List T)
  | [] => some (s, [])
  | op :: ops =>
    match s.step op with
    | none => none
    | some (s1, out) =>
      match MsgQueueReplace.run s1 ops with
      | none => none
      | some (s2, outs) => some (s2, out ++ outs)

/-- Invariant of MsgQueue tying the semaphore counters to the storage. -/
def BInv {T : Type} (s : MsgQueue T) : Prop :=
  s.full = s.queue.length ∧ s.full + s.empty = s.nmax ∧ 1 ≤ s.nmax

/-- Invariant of MsgQueueReplace tying the full counter to the storage. -/
def RInv {T : Type} (s : MsgQueueReplace T) : Prop :=
  s.full = s.queue.length ∧ s.queue.length ≤ s.nmax ∧ 1 ≤ s.nmax

theorem brun_cons_some {T : Type} {s s2 : MsgQueue T} {op : Op T} {ops : List (Op T)}
    {outs : List T} (h : MsgQueue.run s (op :: ops) = some (s2, outs)) :
    ∃ s1 out outs1, s.step op = some (s1, out) ∧
      MsgQueue.run s1 ops = some (s2, outs1) ∧ outs = out ++ outs1 := by
  cases hstep : s.step op with
  | none => simp [MsgQueue.run, hstep] at h
  | some p =>
    cases hrun : MsgQueue.run p.1 ops with
    | none => simp [MsgQueue.run, hstep, hrun] at h
    | some q =>
      simp only [MsgQueue.run, hstep, hrun, Option.some.injEq, Prod.mk.injEq] at h
      exact ⟨p.1, p.2, q.2, rfl, by rw [hrun, ← h.1], h.2.symm⟩

theorem bstep_inv {T : Type} {s s1 : MsgQueue T} {op : Op T} {out : List T}
    (hs : BInv s) (h : s.step op = some (s1, out)) :
    BInv s1 ∧ s.queue ++ pushedOf [op] = out ++ s1.queue := by
  obtain ⟨h1, h2, h3⟩ := hs
  cases op with
  | push m =>
    simp only [MsgQueue.step] at h
    by_cases hemp : 0 < s.empty
    · rw [if_pos hemp] at h
      simp only [Option.some.injEq, Prod.mk.injEq] at h
      obtain ⟨h4, h5⟩ := h
      subst h4; subst h5
      refine ⟨⟨?_, ?_, h3⟩, ?_⟩
      · simp [MsgQueue.pushState, h1]
      · simp only [MsgQueue.pushState]; omega
      · simp [MsgQueue.pushState, pushedOf]
    · rw [if_neg hemp] at h
      exact absurd h (by simp)
  | pop =>
    simp only [MsgQueue.step] at h
    by_cases hful : 0 < s.full
    · rw [if_pos hful] at h
      simp only [Option.some.injEq, Prod.mk.injEq] at h
      obtain ⟨h4, h5⟩ := h
      subst h4; subst h5
      have hne : s.queue ≠ [] := by
        intro hnil; rw [hnil] at h1; simp at h1; omega
      obtain ⟨x, t, hq⟩ := List.exists_cons_of_ne_nil hne
      refine ⟨⟨?_, ?_, h3⟩, ?_⟩
      · simp only [MsgQueue.popState, hq, List.tail_cons]
        rw [hq] at h1; simp at h1; omega
      · simp only [MsgQueue.popState]; omega
      · simp [MsgQueue.popState, pushedOf, hq]
    · rw [if_neg hful] at h
      exact absurd h (by simp)

theorem brun_inv {T : Type} (ops : List (Op T)) :
    ∀ (s s2 : MsgQueue T) (outs : List T),
      MsgQueue.run s ops = some (s2, outs) → BInv s →
      BInv s2 ∧ s.queue ++ pushedOf ops = outs ++ s2.queue := by
  induction ops with
  | nil =>
    intro s s2 outs h hs
    simp only [MsgQueue.run, Option.some.injEq, Prod.mk.injEq] at h
    obtain ⟨h4, h5⟩ := h
    subst h4; subst h5
    simpa [pushedOf] using hs
  | cons op ops ih =>
    intro s s2 outs h hs
    obtain ⟨s1, out, outs1, hstep, hrun, houts⟩ := brun_cons_some h
    obtain ⟨hinv1, htr1⟩ := bstep_inv hs hstep
    obtain ⟨hinv2, htr2⟩ := ih s1 s2 outs1 hrun hinv1
    refine ⟨hinv2, ?_⟩
    subst houts
    have hsplit : pushedOf (op :: ops) = pushedOf [op] ++ pushedOf ops := by
      cases op <;> simp [pushedOf]
    rw [hsplit, ← List.append_assoc, htr1, List.append_assoc, htr2, List.append_assoc]

theorem binv_init (T : Type) (n : Int) : BInv (MsgQueue.init T n) := by
  have h : (1 : Int) ≤ max 1 n := le_max_left 1 n
  refine ⟨rfl, by simp [MsgQueue.init], ?_⟩
  simp only [MsgQueue.init]
  omega

theorem rrun_cons_some {T : Type} {s s2 : MsgQueueReplace T} {op : Op T} {ops : List (Op T)}
    {outs : List T} (h : MsgQueueReplace.run s (op :: ops) = some (s2, outs)) :
    ∃ s1 out outs1, s.step op = some (s1, out) ∧
      MsgQueueReplace.run s1 ops = some (s2, outs1) ∧ outs = out ++ outs1 := by
  cases hstep : s.step op with
  | none => simp [MsgQueueReplace.run, hstep] at h
  | some p =>
    cases hrun : MsgQueueReplace.run p.1 ops with
    | none => simp [MsgQueueReplace.run, hstep, hrun] at h
    | some q =>
      simp only [MsgQueueReplace.run, hstep, hrun, Option.some.injEq, Prod.mk.injEq] at h
      exact ⟨p.1, p.2, q.2, rfl, by rw [hrun, ← h.1], h.2.symm⟩

theorem rstep_inv {T : Type} {s s1 : MsgQueueReplace T} {op : Op T} {out : List T}
    (hs : RInv s) (h : s.step op = some (s1, out)) : RInv s1 := by
  obtain ⟨h1, h2, h3⟩ := hs
  cases op with
  | push m =>
    simp only [MsgQueueReplace.step, Option.some.injEq, Prod.mk.injEq] at h
    obtain ⟨h4, h5⟩ := h
    subst h4
    unfold MsgQueueReplace.push
    split
    case isTrue hge =>
      have hne : s.queue ≠ [] := by
        intro hnil; rw [hnil] at hge; simp at hge; omega
      obtain ⟨x, t, hq⟩ := List.exists_cons_of_ne_nil hne
      rw [hq] at h1 h2 hge
      simp only [hq, List.tail_cons, List.length_cons] at *
      refine ⟨?_, ?_, h3⟩ <;> simp <;> omega
    case isFalse hlt =>
      refine ⟨?_, ?_, h3⟩ <;> simp <;> omega
  | pop =>
    simp only [MsgQueueReplace.step] at h
    by_cases hful : 0 < s.full
    · rw [if_pos hful] at h
      simp only [Option.some.injEq, Prod.mk.injEq] at h
      obtain ⟨h4, h5⟩ := h
      subst h4
      have hne : s.queue ≠ [] := by
        intro hnil; rw [hnil] at h1; simp at h1; omega
      obtain ⟨x, t, hq⟩ := List.exists_cons_of_ne_nil hne
      rw [hq] at h1 h2
      simp only [List.length_cons] at h1 h2
      refine ⟨?_, ?_, h3⟩ <;> simp [MsgQueueReplace.popState, hq] <;> omega
    · rw [if_neg hful] at h
      exact absurd h (by simp)

theorem rrun_inv {T : Type} (ops : List (Op T)) :
    ∀ (s s2 : MsgQueueReplace T) (outs : List T),
      MsgQueueReplace.run s ops = some (s2, outs) → RInv s → RInv s2 := by
  induction ops with
  | nil =>
    intro s s2 outs h hs
    simp only [MsgQueueReplace.run, Option.some.injEq, Prod.mk.injEq] at h
    obtain ⟨h4, h5⟩ := h
    subst h4
    exact hs
  | cons op ops ih =>
    intro s s2 outs h hs
    obtain ⟨s1, out, outs1, hstep, hrun, houts⟩ := rrun_cons_some h
    exact ih s1 s2 outs1 hrun (rstep_inv hs hstep)

theorem rinv_init (T : Type) (n : Int) : RInv (MsgQueueReplace.init T n) := by
  have h : (1 : Int) ≤ max 1 n := le_max_left 1 n
  refine ⟨rfl, by simp [MsgQueueReplace.init], ?_⟩
  simp only [MsgQueueReplace.init]
  omega

/-- Primitive actions of a push/pop body, in program order: blocking
semaphore decrements (acquire), non-blocking increments (release), the
mutex lock/unlock performed by the scoped Lock guard, and accesses of the
storage. -/
inductive Action where
  | acquireEmpty
  | releaseEmpty
  | acquireFull
  | releaseFull
  | lockMutex
  | unlockMutex
  | storageOp
deriving DecidableEq, Repr

/-- Action trace of MsgQueue::push: empty.decrement(), then a block with
Lock lock(mutex) around queue.push(msg), then full.increment(). -/
def MsgQueue.pushActions : List Action :=
  [Action.acquireEmpty, Action.lockMutex, Action.storageOp, Action.unlockMutex,
   Action.releaseFull]

/-- Action trace of MsgQueue::pop: full.decrement(), then a block with
Lock lock(mutex) around queue.front() and queue.pop(), then
empty.increment(). -/
def MsgQueue.popActions : List Action :=
  [Action.acquireFull, Action.lockMutex, Action.storageOp, Action.storageOp,
   Action.unlockMutex, Action.releaseEmpty]

/-- Action trace of MsgQueueReplace::push, whose Lock guard spans the whole
body, so the unlock is the last action; the argument tells which branch of
the size test runs (true: the replacing branch, which touches the storage
twice; false: the branch that pushes and calls full.increment()). -/
def MsgQueueReplace.pushActions (replacing : Bool) : List Action :=
  if replacing then
    [Action.lockMutex, Action.storageOp, Action.storageOp, Action.unlockMutex]
  else
    [Action.lockMutex, Action.storageOp, Action.releaseFull, Action.unlockMutex]

/-- Action trace of MsgQueueReplace::pop: full.decrement(), then a block
with Lock lock(mutex) around queue.front() and queue.pop(). -/
def MsgQueueReplace.popActions : List Action :=
  [Action.acquireFull, Action.lockMutex, Action.storageOp, Action.storageOp,
   Action.unlockMutex]

def Action.isLock : Action → Bool
  | Action.lockMutex => true
  | _ => false

def Action.isUnlock : Action → Bool
  | Action.unlockMutex => true
  | _ => false

/-- Blocking permit acquisitions (semaphore decrements on full or empty). -/
def Action.isAcquire : Action → Bool
  | Action.acquireEmpty => true
  | Action.acquireFull => true
  | _ => false

/-- Any operation on the full/empty permit counters. -/
def Action.isPermitOp : Action → Bool
  | Action.acquireEmpty => true
  | Action.releaseEmpty => true
  | Action.acquireFull => true
  | Action.releaseFull => true
  | _ => false

/-- Actions performed while the mutex is held: those strictly between the
lock acquisition and the matching unlock. -/
def insideLock (as : List Action) : List Action :=
  ((as.dropWhile (fun a => ! a.isLock)).drop 1).takeWhile (fun a => ! a.isUnlock)

/-- C1: invariant of MsgQueueReplace: after every sequence of operations
from a fresh queue, the storage size is between 0 and nmax and equals the
full counter; moreover from such a state a replacing push (size at
capacity) leaves full and the size unchanged, a non-replacing push
increments full by exactly one, and a pop decrements full by exactly
one. -/
theorem replace_full_invariant {T : Type} (n : Int) (ops : List (Op T))
    (s : MsgQueueReplace T) (outs : List T)
    (h : MsgQueueReplace.run (MsgQueueReplace.init T n) ops = some (s, outs)) :
    (s.queue.length ≤ s.nmax ∧ s.full = s.queue.length) ∧
    (∀ m, (s.nmax ≤ s.queue.length →
             (s.push m).full = s.full ∧ (s.push m).queue.length = s.queue.length) ∧
          (s.queue.length < s.nmax → (s.push m).full = s.full + 1)) ∧
    (0 < s.full → s.popState.full + 1 = s.full) := by
  obtain ⟨h1, h2, h3⟩ := rrun_inv ops _ s outs h (rinv_init T n)
  refine ⟨⟨h2, h1⟩, ?_, ?_⟩
  · intro m
    constructor
    · intro hge
      have hne : s.queue ≠ [] := by
        intro hnil; rw [hnil] at hge; simp at hge; omega
      obtain ⟨x, t, hq⟩ := List.exists_cons_of_ne_nil hne
      unfold MsgQueueReplace.push
      rw [if_pos hge]
      exact ⟨rfl, by simp [hq]⟩
    · intro hlt
      unfold MsgQueueReplace.push
      rw [if_neg (by omega)]
  · intro hful
    simp only [MsgQueueReplace.popState]
    omega

theorem replace_full_invariant_witness :
    (⟨2, [6, 7], 2⟩ : MsgQueueReplace Nat).queue.length ≤
      (⟨2, [6, 7], 2⟩ : MsgQueueReplace Nat).nmax ∧
    (⟨2, [6, 7], 2⟩ : MsgQueueReplace Nat).full =
      (⟨2, [6, 7], 2⟩ : MsgQueueReplace Nat).queue.length :=
  (replace_full_invariant 2 [Op.push 5, Op.push 6, Op.push 7]
    ⟨2, [6, 7], 2⟩ [] (by decide)).1

/-- C2: replace semantics of MsgQueueReplace::push: at capacity, push drops
the head and appends the message at the tail, leaving size and full
unchanged; and on a queue of capacity 3, pushing 1,2,3,4,5 and popping 3
times yields exactly 3,4,5 in that order. -/
theorem replace_semantics {T : Type} (s : MsgQueueReplace T) (m : T)
    (hcap : 1 ≤ s.nmax) (hfull : s.nmax ≤ s.queue.length) :
    ((s.push m).queue = s.queue.tail ++ [m] ∧
     (s.push m).queue.length = s.queue.length ∧
     (s.push m).full = s.full) ∧
    MsgQueueReplace.run (MsgQueueReplace.init Nat 3)
      [Op.push 1, Op.push 2, Op.push 3, Op.push 4, Op.push 5, Op.pop, Op.pop, Op.pop] =
      some (⟨3, [], 0⟩, [3, 4, 5]) := by
  constructor
  · have hne : s.queue ≠ [] := by
      intro hnil; rw [hnil] at hfull; simp at hfull; omega
    obtain ⟨x, t, hq⟩ := List.exists_cons_of_ne_nil hne
    unfold MsgQueueReplace.push
    rw [if_pos hfull]
    exact ⟨rfl, by simp [hq], rfl⟩
  · decide

theorem replace_semantics_witness :
    ((⟨1, [9], 1⟩ : MsgQueueReplace Nat).push 10).queue =
      (⟨1, [9], 1⟩ : MsgQueueReplace Nat).queue.tail ++ [10] :=
  (replace_semantics (⟨1, [9], 1⟩ : MsgQueueReplace Nat) 10 (by decide) (by decide)).1.1

/-- C3: FIFO order on MsgQueue: for every sequence of operations from a
fresh queue in which no operation blocks (the run succeeds) and the number
of popped values equals the number of pushed values, the popped values are
exactly the pushed values in push order. -/
theorem fifo_order {T : Type} (n : Int) (ops : List (Op T)) (s : MsgQueue T) (outs : List T)
    (h : MsgQueue.run (MsgQueue.init T n) ops = some (s, outs))
    (hN : outs.length = (pushedOf ops).length) :
    outs = pushedOf ops := by
  obtain ⟨-, htr⟩ := brun_inv ops _ s outs h (binv_init T n)
  simp only [MsgQueue.init, List.nil_append] at htr
  have hlen := congrArg List.length htr
  simp only [List.length_append] at hlen
  have hq : s.queue = [] := List.length_eq_zero.mp (by omega)
  rw [hq, List.append_nil] at htr
  exact htr.symm

theorem fifo_order_witness :
    ([3, 4] : List Nat) = pushedOf [Op.push 3, Op.pop, Op.push 4, Op.pop] :=
  fifo_order 2 [Op.push 3, Op.pop, Op.push 4, Op.pop]
    ⟨2, [], 0, 2⟩ [3, 4] (by decide) (by decide)

/-- C4: invariant of MsgQueue: after every sequence of operations from a
fresh queue, the storage size is between 0 and nmax, the permit counters
satisfy full + empty = nmax, and the storage size equals the full
counter. -/
theorem blocking_queue_invariant {T : Type} (n : Int) (ops : List (Op T))
    (s : MsgQueue T) (outs : List T)
    (h : MsgQueue.run (MsgQueue.init T n) ops = some (s, outs)) :
    s.queue.length ≤ s.nmax ∧ s.full + s.empty = s.nmax ∧ s.queue.length = s.full := by
  obtain ⟨⟨h1, h2, h3⟩, -⟩ := brun_inv ops _ s outs h (binv_init T n)
  exact ⟨by omega, h2, h1.symm⟩

theorem blocking_queue_invariant_witness :
    (⟨2, [7], 1, 1⟩ : MsgQueue Nat).queue.length ≤ (⟨2, [7], 1, 1⟩ : MsgQueue Nat).nmax ∧
    (⟨2, [7], 1, 1⟩ : MsgQueue Nat).full + (⟨2, [7], 1, 1⟩ : MsgQueue Nat).empty =
      (⟨2, [7], 1, 1⟩ : MsgQueue Nat).nmax ∧
    (⟨2, [7], 1, 1⟩ : MsgQueue Nat).queue.length = (⟨2, [7], 1, 1⟩ : MsgQueue Nat).full :=
  blocking_queue_invariant 2 [Op.push 7] ⟨2, [7], 1, 1⟩ [] (by decide)

/-- C5: blocking conditions of MsgQueue: in every reachable state the push
step is enabled iff an empty permit is available, which holds iff the
storage is below capacity; the pop step is enabled iff a full permit is
available, which holds iff the storage is non-empty; in particular with
the storage at capacity every push is disabled, pop is enabled, and after
a pop the push step is enabled again. -/
theorem backpressure_blocking_conditions {T : Type} (n : Int) (ops : List (Op T))
    (s : MsgQueue T) (outs : List T)
    (h : MsgQueue.run (MsgQueue.init T n) ops = some (s, outs)) :
    (∀ m, (s.step (Op.push m)).isSome = true ↔ 0 < s.empty) ∧
    ((s.step Op.pop).isSome = true ↔ 0 < s.full) ∧
    (∀ m, (s.step (Op.push m)).isSome = true ↔ s.queue.length < s.nmax) ∧
    ((s.step Op.pop).isSome = true ↔ s.queue ≠ []) ∧
    (s.queue.length = s.nmax →
      (∀ m, s.step (Op.push m) = none) ∧
      (s.step Op.pop).isSome = true ∧
      (∀ m, (s.popState.step (Op.push m)).isSome = true)) := by
  obtain ⟨⟨h1, h2, h3⟩, -⟩ := brun_inv ops _ s outs h (binv_init T n)
  have hpush : ∀ m : T, (s.step (Op.push m)).isSome = true ↔ 0 < s.empty := by
    intro m
    simp only [MsgQueue.step]
    by_cases hemp : 0 < s.empty
    · simp [hemp]
    · simp [hemp]
  have hpop : (s.step Op.pop).isSome = true ↔ 0 < s.full := by
    simp only [MsgQueue.step]
    by_cases hful : 0 < s.full
    · simp [hful]
    · simp [hful]
  refine ⟨hpush, hpop, ?_, ?_, ?_⟩
  · intro m; rw [hpush m]; omega
  · rw [hpop]
    constructor
    · intro hful hnil; rw [hnil] at h1; simp at h1; omega
    · intro hne
      have hpos : 0 < s.queue.length := List.length_pos.mpr hne
      omega
  · intro hfullq
    refine ⟨?_, ?_, ?_⟩
    · intro m
      simp only [MsgQueue.step]
      rw [if_neg (by omega)]
    · rw [hpop]; omega
    · intro m
      simp [MsgQueue.step, MsgQueue.popState]

theorem backpressure_blocking_conditions_witness :
    (∀ m, (⟨2, [7, 8], 2, 0⟩ : MsgQueue Nat).step (Op.push m) = none) ∧
    ((⟨2, [7, 8], 2, 0⟩ : MsgQueue Nat).step Op.pop).isSome = true ∧
    (∀ m, ((⟨2, [7, 8], 2, 0⟩ : MsgQueue Nat).popState.step (Op.push m)).isSome = true) :=
  (backpressure_blocking_conditions 2 [Op.push 7, Op.push 8]
    ⟨2, [7, 8], 2, 0⟩ [] (by decide)).2.2.2.2 rfl

/-- C6: MsgQueueReplace::push is total and never blocks: from any state,
any number of consecutive pushes runs to completion with no popped output,
and no branch of the push body contains a blocking permit acquisition. -/
theorem replace_push_never_blocks {T : Type} (s : MsgQueueReplace T) (vs : List T) :
    MsgQueueReplace.run s (vs.map Op.push) =
      some (vs.foldl MsgQueueReplace.push s, []) ∧
    (∀ b, (MsgQueueReplace.pushActions b).all (fun a => ! a.isAcquire) = true) := by
  constructor
  · induction vs generalizing s with
    | nil => simp [MsgQueueReplace.run]
    | cons v vs ih => simp [MsgQueueReplace.run, MsgQueueReplace.step, ih]
  · decide

/-- C7: capacity clamp: both constructors set the effective capacity nmax
to max(1, n); a zero or negative request yields capacity 1, a positive
request is kept; MsgQueue starts with empty = nmax free slots. -/
theorem capacity_clamp (T : Type) (n : Int) :
    ((MsgQueue.init T n).nmax : Int) = max 1 n ∧
    ((MsgQueueReplace.init T n).nmax : Int) = max 1 n ∧
    (MsgQueue.init T n).empty = (MsgQueue.init T n).nmax ∧
    (n ≤ 0 → (MsgQueue.init T n).nmax = 1 ∧ (MsgQueueReplace.init T n).nmax = 1) ∧
    (1 ≤ n → ((MsgQueue.init T n).nmax : Int) = n ∧
             ((MsgQueueReplace.init T n).nmax : Int) = n) := by
  have hmax : (1 : Int) ≤ max 1 n := le_max_left 1 n
  have htn : (((max 1 n).toNat : Int)) = max 1 n := Int.toNat_of_nonneg (by omega)
  refine ⟨htn, htn, rfl, ?_, ?_⟩
  · intro hle
    have hm : max 1 n = 1 := max_eq_left (by omega)
    constructor <;> · show (max 1 n).toNat = 1; rw [hm]; rfl
  · intro hge
    have hm : max 1 n = n := max_eq_right hge
    constructor <;> · show (((max 1 n).toNat : Int)) = n; rw [htn, hm]

theorem capacity_clamp_witness :
    (MsgQueue.init Nat (-5)).nmax = 1 ∧ (MsgQueueReplace.init Nat (-5)).nmax = 1 :=
  (capacity_clamp Nat (-5)).2.2.2.1 (by decide)

/-- C8 counterexample: contrary to the claim that permit operations never
happen while the lock is held, the non-replacing branch of
MsgQueueReplace::push performs full.increment() inside the mutex-held
region, because its Lock guard spans the whole function body. -/
theorem lock_permit_ordering_counterexample :
    Action.releaseFull ∈ insideLock (MsgQueueReplace.pushActions false) ∧
    Action.releaseFull.isPermitOp = true := by
  decide

/-- C8 amended: no blocking permit acquisition ever happens while the lock
is held, in any operation of either queue; in MsgQueue::push, MsgQueue::pop
and MsgQueueReplace::pop even permit releases happen strictly outside the
lock, while MsgQueueReplace::push releases full inside the lock. -/
theorem lock_permit_ordering_amended :
    (insideLock MsgQueue.pushActions).all (fun a => ! a.isPermitOp) = true ∧
    (insideLock MsgQueue.popActions).all (fun a => ! a.isPermitOp) = true ∧
    (insideLock (MsgQueueReplace.pushActions true)).all (fun a => ! a.isAcquire) = true ∧
    (insideLock (MsgQueueReplace.pushActions false)).all (fun a => ! a.isAcquire) = true ∧
    (insideLock MsgQueueReplace.popActions).all (fun a => ! a.isPermitOp) = true := by
  decide

/-- C9: guarded storage accesses: in every reachable state of either queue
the full counter never exceeds the stored element count, so whenever a pop
has acquired a full permit the storage is non-empty and queue.front() is
defined; and in MsgQueueReplace::push the replacing branch (size at least
nmax) only runs with non-empty storage. -/
theorem storage_access_guarded (T : Type) (n : Int) :
    (∀ (ops : List (Op T)) (s : MsgQueue T) (outs : List T),
       MsgQueue.run (MsgQueue.init T n) ops = some (s, outs) →
       s.full ≤ s.queue.length ∧
       (0 < s.full → s.queue ≠ [] ∧ ∃ x, s.queue.head? = some x)) ∧
    (∀ (ops : List (Op T)) (s : MsgQueueReplace T) (outs : List T),
       MsgQueueReplace.run (MsgQueueReplace.init T n) ops = some (s, outs) →
       s.full ≤ s.queue.length ∧
       (0 < s.full → s.queue ≠ [] ∧ ∃ x, s.queue.head? = some x) ∧
       (s.nmax ≤ s.queue.length → s.queue ≠ [])) := by
  constructor
  · intro ops s outs h
    obtain ⟨⟨h1, h2, h3⟩, -⟩ := brun_inv ops _ s outs h (binv_init T n)
    refine ⟨le_of_eq h1, ?_⟩
    intro hful
    have hne : s.queue ≠ [] := by
      intro hnil; rw [hnil] at h1; simp at h1; omega
    obtain ⟨x, t, hq⟩ := List.exists_cons_of_ne_nil hne
    exact ⟨hne, x, by rw [hq]; rfl⟩
  · intro ops s outs h
    obtain ⟨h1, h2, h3⟩ := rrun_inv ops _ s outs h (rinv_init T n)
    refine ⟨le_of_eq h1, ?_, ?_⟩
    · intro hful
      have hne : s.queue ≠ [] := by
        intro hnil; rw [hnil] at h1; simp at h1; omega
      obtain ⟨x, t, hq⟩ := List.exists_cons_of_ne_nil hne
      exact ⟨hne, x, by rw [hq]; rfl⟩
    · intro hge hnil
      rw [hnil] at hge
      simp at hge
      omega

theorem storage_access_guarded_witness :
    (⟨2, [7], 1, 1⟩ : MsgQueue Nat).full ≤ (⟨2, [7], 1, 1⟩ : MsgQueue Nat).queue.length :=
  ((storage_access_guarded Nat 2).1 [Op.push 7] ⟨2, [7], 1, 1⟩ [] (by decide)).1

/-- C10: no loss or duplication: for every sequence of operations from a
fresh MsgQueue in which no operation blocks and which drains the queue,
the multiset of popped values equals the multiset of pushed values. -/
theorem no_loss_no_duplication {T : Type} (n : Int) (ops : List (Op T)) (s : MsgQueue T)
    (outs : List T) (h : MsgQueue.run (MsgQueue.init T n) ops = some (s, outs))
    (hdrain : s.queue = []) :
    (outs : Multiset T) = (pushedOf ops : Multiset T) := by
  obtain ⟨-, htr⟩ := brun_inv ops _ s outs h (binv_init T n)
  simp only [MsgQueue.init, List.nil_append] at htr
  rw [hdrain, List.append_nil] at htr
  rw [htr]

theorem no_loss_no_duplication_witness :
    (([5, 6] : List Nat) : Multiset Nat) =
      (pushedOf [Op.push 5, Op.push 6, Op.pop, Op.pop] : Multiset Nat) :=
  no_loss_no_duplication 2 [Op.push 5, Op.push 6, Op.pop, Op.pop]
    ⟨2, [], 0, 2⟩ [5, 6] (by decide) rfl

end Cvkit
